import Mathlib

/-!
Verification of the linked-selection and brushing core of the CIA energy
dashboard (`cia_v1.py`, with an earlier variant in `unnamed/part_000`).

The embedding below translates the data model and the state-manipulating
fragments of the source into executable Lean definitions:

* a table row carries its country name, ISO-3 code, continent and a
  partial mapping from indicator (column) name to a numeric value; a
  missing cell (`NaN` in pandas) is an absent key, so lookups return
  `Option ℚ`;
* the parallel-coordinates brush state (`pc-brush` store, a Python dict
  from column name to a `[lo, hi]` pair) is an association list;
* the highlight stores (`highlight-country-names`, `selected-iso-store`)
  are the sorted, duplicate-free lists that `sync_highlights` returns;
  Python `set(...)` conversion is modelled by `List.dedup` and Python
  `sorted(...)` by `List.insertionSort`;
* pandas float columns are modelled by `ℚ`; comparisons against a
  missing value (`NaN`) are `false`, exactly as `NaN >= lo` is falsy in
  pandas, which the `Option` match reproduces.
-/

/-- A row of the loaded indicator table, as consumed by the callbacks:
`_country_fixed`, `iso_alpha`, `continent` and the numeric cells.  A cell
that is missing (NaN) is simply absent from `vals`. -/
structure Row where
  name : String
  iso : String
  continent : String
  vals : List (String × ℚ)
deriving DecidableEq

/-- Cell lookup: the numeric value of column `c` in row `r`, or `none`
when the cell is missing. -/
def Row.value (r : Row) (c : String) : Option ℚ :=
  (r.vals.lookup c)

/-- The `pc-brush` store: a mapping from column name to the inclusive
`[lo, hi]` constraint of that axis (a Python dict of 2-element lists). -/
abbrev Brush := List (String × ℚ × ℚ)

/-- One conjunct of the brush mask, `(sub[col] >= lo) & (sub[col] <= hi)`
evaluated at a single row.  In pandas a comparison against NaN is false,
hence the `none` branch. -/
def inRange (r : Row) (c : String) (lo hi : ℚ) : Bool :=
  match r.value c with
  | some v => decide (lo ≤ v) && decide (v ≤ hi)
  | none => false

/-- The brush mask at one row: `brushed_mask = np.ones(...)` followed by
`brushed_mask &= (sub[col] >= lo) & (sub[col] <= hi)` for every
`(col, rng)` item of the brush dict (`analytics`, `cia_v1.py`). -/
def brushSat (brush : Brush) (r : Row) : Bool :=
  brush.foldl (fun m p => m && inRange r p.1 p.2.1 p.2.2) true

/-- The brush evaluator over a table: the boolean mask, one entry per
row of the evaluated frame. -/
def evaluate (rows : List Row) (brush : Brush) : List Bool :=
  rows.map (brushSat brush)

/-- The concrete example brush of the specification:
constraints `A ∈ [0, 10]` and `B ∈ [5, 15]`. -/
def exBrush : Brush := [("A", 0, 10), ("B", 5, 15)]

/-- A row over the two axes `A` and `B`, either cell possibly missing. -/
def rowAB (a b : Option ℚ) : Row :=
  { name := "X", iso := "XXX", continent := "",
    vals := (match a with | some v => [("A", v)] | none => []) ++
            (match b with | some v => [("B", v)] | none => []) }

/- Helper: a fold of `&&` over a list equals the conjunction of the
initial accumulator with `List.all`. -/
theorem foldl_and_eq_all {α : Type} (g : α → Bool) :
    ∀ (l : List α) (init : Bool),
      l.foldl (fun m p => m && g p) init = (init && l.all g) := by
  intro l
  induction l with
  | nil => intro init; simp
  | cons x xs ih =>
      intro init
      simp only [List.foldl_cons, List.all_cons, ih, Bool.and_assoc]

theorem brushSat_eq_all (brush : Brush) (r : Row) :
    brushSat brush r = brush.all (fun p => inRange r p.1 p.2.1 p.2.2) := by
  simp [brushSat, foldl_and_eq_all]

theorem inRange_eq_true_iff (r : Row) (c : String) (lo hi : ℚ) :
    inRange r c lo hi = true ↔
      ∃ v, r.value c = some v ∧ lo ≤ v ∧ v ≤ hi := by
  unfold inRange
  cases h : r.value c with
  | none => simp
  | some v => simp [h]

/-- C1.  The brush evaluator marks a row as brushed iff, for every
constrained axis, the row has a non-missing value inside the inclusive
`[lo, hi]` range of that axis (conjunction across all constraints); in
particular, under `{A:[0,10], B:[5,15]}` a row with `A=5, B=20` is
excluded, a row with `A=5, B=10` is included, and a row missing `A` is
excluded regardless of its `B` value. -/
theorem brushSat_iff_all_constraints (brush : Brush) (r : Row)
    (hne : brush ≠ []) :
    (brushSat brush r = true ↔
      ∀ p ∈ brush, ∃ v, r.value p.1 = some v ∧ p.2.1 ≤ v ∧ v ≤ p.2.2) ∧
    brushSat exBrush (rowAB (some 5) (some 20)) = false ∧
    brushSat exBrush (rowAB (some 5) (some 10)) = true ∧
    (∀ b : Option ℚ, brushSat exBrush (rowAB none b) = false) := by
  refine ⟨?_, by decide, by decide, ?_⟩
  · rw [brushSat_eq_all, List.all_eq_true]
    constructor
    · intro h p hp
      exact (inRange_eq_true_iff r p.1 p.2.1 p.2.2).mp (h p hp)
    · intro h p hp
      exact (inRange_eq_true_iff r p.1 p.2.1 p.2.2).mpr (h p hp)
  · intro b
    cases b with
    | none => decide
    | some v =>
        simp [brushSat, exBrush, inRange, Row.value, rowAB, List.lookup]

/-- Witness for C1 at the concrete included row `A=5, B=10`. -/
theorem brushSat_iff_all_constraints_witness :
    exBrush ≠ [] ∧ brushSat exBrush (rowAB (some 5) (some 10)) = true :=
  ⟨by decide,
   (brushSat_iff_all_constraints exBrush (rowAB (some 5) (some 10))
      (by decide)).2.2.1⟩

/-- `sub = base[["_country_fixed", "iso_alpha"] + use_cols].dropna()`:
the whole-row dropna over all numeric columns (`schema`) that both
`analytics` and `update_countries_tab` apply before any brush logic, and
whose rows are exactly the lines drawn by the parallel-coordinates plot. -/
def dropna (schema : List String) (rows : List Row) : List Row :=
  rows.filter (fun r => schema.all (fun c => (r.value c).isSome))

/-- The brushed rows of `analytics`: `sub.loc[brushed_mask]`. -/
def brushedRows (schema : List String) (rows : List Row) (brush : Brush) :
    List Row :=
  (dropna schema rows).filter (brushSat brush)

/-- The brush mask conjunct of `update_countries_tab`: identical to
`brushSat` except that a constraint whose column is not a column of the
evaluated frame is skipped (`if col in sub.columns`); brush keys always
come from `use_cols = schema`, so the skip only matters for foreign keys. -/
def brushSatTab (schema : List String) (brush : Brush) (r : Row) : Bool :=
  (brush.filter (fun p => decide (p.1 ∈ schema))).foldl
    (fun m p => m && inRange r p.1 p.2.1 p.2.2) true

/-- The brushed rows of `update_countries_tab`. -/
def brushedRowsTab (schema : List String) (rows : List Row) (brush : Brush) :
    List Row :=
  (dropna schema rows).filter (brushSatTab schema brush)

/-- What the brushing consumers surface: either the explanatory prompt
(no listing) or a listing of country names. -/
inductive Outcome where
  | prompt
  | listing (entries : List String)
deriving DecidableEq

/-- The `pc-countries-list` output of `update_countries_tab` (restricted
to the brush section, i.e. with no clicked selection): a listing of at
most 40 brushed countries is rendered only when the brush dict is
non-empty and the mask matches at least one row (`if pc_brush_state and
... len(pc_brush_state) > 0`, `if brushed_mask.any()`); an empty `result`
falls back to the prompt asking the user to click or brush. -/
def update_countries_tab (schema : List String) (rows : List Row)
    (brush : Brush) : Outcome :=
  let bs := brushedRowsTab schema rows brush
  if brush ≠ [] ∧ bs ≠ [] then .listing ((bs.take 40).map Row.name)
  else .prompt

/-- The `brush_list` note of `analytics`: `brush_names` is filled only
when the mask matches some row and the brush dict has a (truthy) value,
i.e. is non-empty; otherwise the prompt string
"Brush on axes to see selected countries." is produced. -/
def brush_list (schema : List String) (rows : List Row) (brush : Brush) :
    Outcome :=
  let bs := brushedRows schema rows brush
  let names := if bs ≠ [] ∧ brush ≠ []
    then (bs.take 40).map (fun r => "• " ++ r.name) else []
  if names ≠ [] then .listing ("Brushed countries:" :: names)
  else .prompt

/-- C2.  With zero active brush constraints both consumers surface the
distinct "no active brush" outcome (the prompt, listing no countries)
rather than treating every row as passing, while a non-empty constraint
set whose mask is all-true on a non-empty frame yields a country
listing: the two situations are surfaced differently. -/
theorem empty_brush_distinct_from_all_pass (schema : List String)
    (rows : List Row) (brush : Brush) (hb : brush ≠ [])
    (hsub : dropna schema rows ≠ [])
    (hall : ∀ r ∈ dropna schema rows, brushSatTab schema brush r = true)
    (hall2 : ∀ r ∈ dropna schema rows, brushSat brush r = true) :
    update_countries_tab schema rows [] = .prompt ∧
    brush_list schema rows [] = .prompt ∧
    (∃ ns, ns ≠ [] ∧ update_countries_tab schema rows brush = .listing ns) ∧
    (∃ ns, brush_list schema rows brush = .listing ns) ∧
    update_countries_tab schema rows brush ≠
      update_countries_tab schema rows [] ∧
    brush_list schema rows brush ≠ brush_list schema rows [] := by
  have htab : brushedRowsTab schema rows brush = dropna schema rows := by
    unfold brushedRowsTab
    exact List.filter_eq_self.mpr hall
  have hbr : brushedRows schema rows brush = dropna schema rows := by
    unfold brushedRows
    exact List.filter_eq_self.mpr hall2
  have htake : (dropna schema rows).take 40 ≠ [] := by
    cases h : dropna schema rows with
    | nil => exact absurd h hsub
    | cons x xs => simp
  constructor
  · simp [update_countries_tab]
  constructor
  · simp [brush_list]
  have hout : update_countries_tab schema rows brush =
      .listing (((dropna schema rows).take 40).map Row.name) := by
    unfold update_countries_tab
    rw [htab]
    simp [hb, hsub]
  have hout2 : brush_list schema rows brush =
      .listing ("Brushed countries:" ::
        ((dropna schema rows).take 40).map (fun r => "• " ++ r.name)) := by
    unfold brush_list
    rw [hbr]
    simp [hb, hsub]
  refine ⟨⟨_, ?_, hout⟩, ⟨_, hout2⟩, ?_, ?_⟩
  · simpa using htake
  · rw [hout]
    simp [update_countries_tab]
  · rw [hout2]
    simp [brush_list]

/-- Witness for C2: one row with `A = 5`, one constraint `A ∈ [0, 10]`
whose mask is all-true. -/
theorem empty_brush_distinct_from_all_pass_witness :
    (([("A", (0 : ℚ), (10 : ℚ))] : Brush) ≠ [] ∧
      dropna ["A"] [rowAB (some 5) none] ≠ []) ∧
    update_countries_tab ["A"] [rowAB (some 5) none] [] = .prompt ∧
    (∃ ns, ns ≠ [] ∧
      update_countries_tab ["A"] [rowAB (some 5) none]
        [("A", (0 : ℚ), (10 : ℚ))] = .listing ns) := by
  have h := empty_brush_distinct_from_all_pass ["A"] [rowAB (some 5) none]
    [("A", (0 : ℚ), (10 : ℚ))] (by decide) (by decide) (by decide) (by decide)
  exact ⟨⟨by decide, by decide⟩, h.1, h.2.2.1⟩

/-- C9.  Both brushed-country computations and the parallel-coordinates
plot operate on the whole-row `dropna` of the table: a row missing a
value in any numeric column of the schema — constrained by the brush or
not — is dropped from the plotted frame and never appears among the
brushed rows of either consumer, for every brush. -/
theorem missing_value_row_never_brushed (schema : List String)
    (rows : List Row) (r : Row) (c : String) (hc : c ∈ schema)
    (hm : r.value c = none) :
    r ∉ dropna schema rows ∧
    (∀ brush, r ∉ brushedRows schema rows brush) ∧
    (∀ brush, r ∉ brushedRowsTab schema rows brush) := by
  have hnot : r ∉ dropna schema rows := by
    intro hmem
    have := List.of_mem_filter hmem
    rw [List.all_eq_true] at this
    have := this c hc
    rw [hm] at this
    simp at this
  refine ⟨hnot, ?_, ?_⟩
  · intro brush hmem
    exact hnot (List.mem_of_mem_filter hmem)
  · intro brush hmem
    exact hnot (List.mem_of_mem_filter hmem)

/-- Witness for C9: a row with `A` missing and `B = 3` is neither
plotted nor ever brushed. -/
theorem missing_value_row_never_brushed_witness :
    ("A" ∈ ["A", "B"] ∧ (rowAB none (some 3)).value "A" = none) ∧
    rowAB none (some 3) ∉ dropna ["A", "B"] [rowAB none (some 3)] ∧
    rowAB none (some 3) ∉
      brushedRows ["A", "B"] [rowAB none (some 3)] exBrush := by
  have h := missing_value_row_never_brushed ["A", "B"]
    [rowAB none (some 3)] (rowAB none (some 3)) "A" (by decide) (by decide)
  exact ⟨⟨by decide, by decide⟩, h.1, h.2.1 exBrush⟩

/-- Python `sorted(...)` over strings. -/
def pySorted (l : List String) : List String :=
  List.insertionSort (· ≤ ·) l

/-- Python `set.add`: insert unless already present. -/
def setAdd (S : List String) (x : String) : List String :=
  if x ∈ S then S else x :: S

/-- Python `set.remove`: drop the element. -/
def setRemove (S : List String) (x : String) : List String :=
  S.filter (fun y => y ≠ x)

/-- The body of `sync_highlights` (`cia_v1.py`): the previous store
contents are turned into sets (`set(prev or [])`, modelled by `dedup`),
the clicked ISO — when truthy — toggles membership in the ISO set, the
name set follows when `ISO_TO_NAME` knows the code (`isoToName`), and
both sets are returned through `sorted(...)`. -/
def sync_highlights (isoToName : String → Option String)
    (prevNames prevIsos : List String) :
    Option String → List String × List String
  | none => (pySorted prevNames.dedup, pySorted prevIsos.dedup)
  | some i =>
    if i = "" then (pySorted prevNames.dedup, pySorted prevIsos.dedup)
    else if i ∈ prevIsos.dedup then
      (pySorted (match isoToName i with
        | some nm => if nm ∈ prevNames.dedup then
            setRemove prevNames.dedup nm else prevNames.dedup
        | none => prevNames.dedup),
       pySorted (setRemove prevIsos.dedup i))
    else
      (pySorted (match isoToName i with
        | some nm => setAdd prevNames.dedup nm
        | none => prevNames.dedup),
       pySorted (setAdd prevIsos.dedup i))

/-- Python dict assignment `new_brush_state[col] = v`: overwrite in
place when the key exists, append otherwise. -/
def brushSet (b : Brush) (c : String) (lo hi : ℚ) : Brush :=
  if b.any (fun p => decide (p.1 = c)) then
    b.map (fun p => if p.1 = c then (c, lo, hi) else p)
  else b ++ [(c, lo, hi)]

/-- Python `del new_brush_state[col]` guarded by membership. -/
def brushDel (b : Brush) (c : String) : Brush :=
  b.filter (fun p => p.1 ≠ c)

/-- The restyle-parsing block of `analytics`: a `constraintrange`
update for a known axis either stores the `[lo, hi]` pair or — when the
range is cleared — deletes that axis key; no restyle event leaves the
dict alone. -/
def applyRestyle : Option (String × Option (ℚ × ℚ)) → Brush → Brush
  | none, b => b
  | some (c, none), b => brushDel b c
  | some (c, some r), b => brushSet b c r.1 r.2

/-- The brush-state portion of `analytics`: start from the previous
`pc-brush` store, apply the parsed restyle event if any, then clear the
whole dict when the trigger was the `reset-parcoords` button. -/
def analyticsBrushStep (restyle : Option (String × Option (ℚ × ℚ)))
    (isReset : Bool) (prev : Brush) : Brush :=
  let nb := applyRestyle restyle prev
  if isReset then [] else nb

/-- The component a click event originated from; `sync_highlights`
extracts the ISO from each payload shape and then runs one common
toggle. -/
inductive ClickSource where
  | map
  | scatter
  | rank
  | pca
deriving DecidableEq

/-- External input events driving the selection state. -/
inductive Event where
  | click (src : ClickSource) (iso : Option String)
  | restyle (col : String) (rng : Option (ℚ × ℚ))
  | reset
  | setRegion (r : String)

/-- The process-wide selection state: the two highlight stores (held as
the sorted lists `sync_highlights` emits), the `pc-brush` dict, the
region dropdown value, and the current `restyleData` property of the
parcoords graph.  Dash retains the last restyle event in that property
indefinitely — figure rebuilds do not clear it — and hands it to every
`analytics` invocation, so it is part of the state. -/
structure AppState where
  names : List String
  isos : List String
  brush : Brush
  region : String
  lastRestyle : Option (String × Option (ℚ × ℚ))
deriving DecidableEq

/-- One interaction step.  Clicks run `sync_highlights` (the only
callback writing the highlight stores).  `analytics` is the only writer
of `pc-brush`, and it fires on restyle events, on the reset button, on
region changes and (through the `selected-iso-store` chain) on clicks;
its parse block is not guarded by the trigger, so every invocation
re-applies the current — possibly stale — `restyleData` to the stored
brush before the reset check.  A new restyle event also overwrites the
retained `restyleData` property; no other event does. -/
def step (isoToName : String → Option String) (s : AppState) :
    Event → AppState
  | .click _ iso =>
      let out := sync_highlights isoToName s.names s.isos iso
      { s with names := out.1, isos := out.2,
               brush := analyticsBrushStep s.lastRestyle false s.brush }
  | .restyle c rng =>
      { s with brush := analyticsBrushStep (some (c, rng)) false s.brush,
               lastRestyle := some (c, rng) }
  | .reset =>
      { s with brush := analyticsBrushStep s.lastRestyle true s.brush }
  | .setRegion r =>
      { s with region := r,
               brush := analyticsBrushStep s.lastRestyle false s.brush }

theorem mem_pySorted {x : String} {l : List String} :
    x ∈ pySorted l ↔ x ∈ l :=
  (List.perm_insertionSort _ l).mem_iff

theorem mem_setAdd {x i : String} {l : List String} :
    x ∈ setAdd l i ↔ x = i ∨ x ∈ l := by
  unfold setAdd
  split
  · next h => constructor
              · intro hx; exact Or.inr hx
              · intro hx; cases hx with
                | inl he => exact he ▸ h
                | inr hx => exact hx
  · simp

theorem mem_setRemove {x i : String} {l : List String} :
    x ∈ setRemove l i ↔ x ∈ l ∧ x ≠ i := by
  simp [setRemove]

/-- C4.  A reset action clears the brush mapping to empty
unconditionally and leaves both highlight stores exactly unchanged. -/
theorem reset_clears_brush_only (isoToName : String → Option String)
    (s : AppState) :
    (step isoToName s .reset).brush = [] ∧
    (step isoToName s .reset).isos = s.isos ∧
    (step isoToName s .reset).names = s.names := by
  refine ⟨?_, rfl, rfl⟩
  simp [step, analyticsBrushStep]

/-- The C5 failing run: brush axis `B` to `[1, 2]` (the restyle event
is retained in the `restyleData` property), press the reset button
(`pc-brush` becomes `{}`), then change only the region dropdown. -/
def s5Brushed : AppState :=
  step (fun _ => none) (AppState.mk [] [] [] "All" none)
    (.restyle "B" (some (1, 2)))

def s5Reset : AppState :=
  step (fun _ => none) s5Brushed .reset

def s5Region : AppState :=
  step (fun _ => none) s5Reset (.setRegion "Asia")

/-- C5 (code bug).  The claim — a region-only change never mutates the
brush mapping or the highlighted set — fails on the code: after
brushing axis `B`, resetting, and then changing only the region, the
unguarded parse block of `analytics` re-applies the stale `restyleData`
and the cleared constraint reappears in `pc-brush`, so the brush is
mutated by a region-only change; the highlight stores (the part of the
claim that does hold) are untouched. -/
theorem region_change_after_reset_resurrects_brush :
    s5Reset.brush = [] ∧
    s5Region.brush = [("B", 1, 2)] ∧
    s5Region.brush ≠ s5Reset.brush ∧
    s5Region.isos = s5Reset.isos ∧
    s5Region.names = s5Reset.names := by
  decide

theorem isos_after_click (f : String → Option String) (s : AppState)
    (src : ClickSource) (i : String) (h : i ≠ "") :
    (step f s (.click src (some i))).isos =
      if i ∈ s.isos.dedup then pySorted (setRemove s.isos.dedup i)
      else pySorted (setAdd s.isos.dedup i) := by
  simp only [step, sync_highlights, h, if_neg, ite_false, if_false]
  split <;> rfl

theorem toFinset_pySorted (l : List String) :
    (pySorted l).toFinset = l.toFinset := by
  ext x
  simp [mem_pySorted]

theorem toFinset_setRemove (l : List String) (i : String) :
    (setRemove l i).toFinset = l.toFinset.erase i := by
  ext x
  simp only [List.mem_toFinset, mem_setRemove, Finset.mem_erase,
    List.mem_toFinset]
  tauto

theorem toFinset_setAdd (l : List String) (i : String) :
    (setAdd l i).toFinset = insert i l.toFinset := by
  ext x
  simp [mem_setAdd]

theorem toFinset_dedup (l : List String) :
    l.dedup.toFinset = l.toFinset := by
  ext x
  simp [List.mem_dedup]

theorem toFinset_isos_click (f : String → Option String) (s : AppState)
    (src : ClickSource) (i : String) (h : i ≠ "") :
    (step f s (.click src (some i))).isos.toFinset =
      if i ∈ s.isos then s.isos.toFinset.erase i
      else insert i s.isos.toFinset := by
  rw [isos_after_click f s src i h]
  by_cases hm : i ∈ s.isos
  · rw [if_pos ((List.mem_dedup).mpr hm), if_pos hm, toFinset_pySorted,
      toFinset_setRemove, toFinset_dedup]
  · rw [if_neg (fun hc => hm ((List.mem_dedup).mp hc)), if_neg hm,
      toFinset_pySorted, toFinset_setAdd, toFinset_dedup]

/-- C3.  Clicking an ISO-3 (from any of map, scatter, rank or PCA)
toggles its membership in the highlighted set: present codes are
removed, absent codes are added, several codes can be highlighted at
once, and clicking the same code twice restores the highlighted set to
its pre-click state. -/
theorem click_toggles_highlight (f : String → Option String)
    (s : AppState) (src src2 : ClickSource) (i : String) (h : i ≠ "") :
    (i ∈ s.isos →
      (step f s (.click src (some i))).isos.toFinset =
        s.isos.toFinset.erase i) ∧
    (i ∉ s.isos →
      (step f s (.click src (some i))).isos.toFinset =
        insert i s.isos.toFinset) ∧
    (step f (step f s (.click src (some i)))
        (.click src2 (some i))).isos.toFinset = s.isos.toFinset ∧
    (∀ b, b ≠ "" → i ∉ s.isos → b ∉ s.isos → b ≠ i →
      i ∈ (step f (step f s (.click src (some i)))
            (.click src2 (some b))).isos ∧
      b ∈ (step f (step f s (.click src (some i)))
            (.click src2 (some b))).isos) := by
  have hfin := toFinset_isos_click f s src i h
  refine ⟨?_, ?_, ?_, ?_⟩
  · intro hm
    rw [hfin, if_pos hm]
  · intro hm
    rw [hfin, if_neg hm]
  · have hfin2 := toFinset_isos_click f (step f s (.click src (some i)))
      src2 i h
    by_cases hm : i ∈ s.isos
    · have hnot : i ∉ (step f s (.click src (some i))).isos := by
        intro hc
        have : i ∈ (step f s (.click src (some i))).isos.toFinset :=
          (List.mem_toFinset).mpr hc
        rw [hfin, if_pos hm] at this
        exact (Finset.not_mem_erase i _) this
      rw [hfin2, if_neg hnot, hfin, if_pos hm]
      exact Finset.insert_erase ((List.mem_toFinset).mpr hm)
    · have hyes : i ∈ (step f s (.click src (some i))).isos := by
        have : i ∈ (step f s (.click src (some i))).isos.toFinset := by
          rw [hfin, if_neg hm]
          exact Finset.mem_insert_self i _
        exact (List.mem_toFinset).mp this
      rw [hfin2, if_pos hyes, hfin, if_neg hm]
      exact Finset.erase_insert (fun hc => hm ((List.mem_toFinset).mp hc))
  · intro b hb hmi hmb hbi
    have hyes : i ∈ (step f s (.click src (some i))).isos := by
      have : i ∈ (step f s (.click src (some i))).isos.toFinset := by
        rw [hfin, if_neg hmi]
        exact Finset.mem_insert_self i _
      exact (List.mem_toFinset).mp this
    have hbnot : b ∉ (step f s (.click src (some i))).isos := by
      intro hc
      have : b ∈ (step f s (.click src (some i))).isos.toFinset :=
        (List.mem_toFinset).mpr hc
      rw [hfin, if_neg hmi] at this
      rcases Finset.mem_insert.mp this with he | hmem
      · exact hbi he
      · exact hmb ((List.mem_toFinset).mp hmem)
    have hfinb := toFinset_isos_click f (step f s (.click src (some i)))
      src2 b hb
    rw [if_neg hbnot] at hfinb
    constructor
    · apply (List.mem_toFinset).mp
      rw [hfinb]
      apply Finset.mem_insert.mpr
      exact Or.inr ((List.mem_toFinset).mpr hyes)
    · apply (List.mem_toFinset).mp
      rw [hfinb]
      exact Finset.mem_insert_self b _

/-- Witness for C3: clicking "USA" twice starting from an empty
highlighted set adds it and then removes it again. -/
theorem click_toggles_highlight_witness :
    (("USA" : String) ≠ "" ∧
      "USA" ∉ (AppState.mk [] [] [] "All" none).isos) ∧
    (step (fun _ => none)
        (AppState.mk [] [] [] "All" none)
        (.click .map (some "USA"))).isos.toFinset =
      insert "USA" ((AppState.mk [] [] [] "All" none).isos.toFinset) ∧
    (step (fun _ => none)
        (step (fun _ => none) (AppState.mk [] [] [] "All" none)
          (.click .map (some "USA")))
        (.click .scatter (some "USA"))).isos.toFinset =
      (AppState.mk [] [] [] "All" none).isos.toFinset := by
  have h := click_toggles_highlight (fun _ => none)
    (AppState.mk [] [] [] "All" none) .map .scatter "USA" (by decide)
  exact ⟨⟨by decide, by decide⟩, h.2.1 (by decide), h.2.2.1⟩

theorem pySorted_sorted (l : List String) :
    (pySorted l).Sorted (· ≤ ·) :=
  List.sorted_insertionSort _ l

theorem pySorted_nodup {l : List String} (h : l.Nodup) :
    (pySorted l).Nodup :=
  ((List.perm_insertionSort _ l).nodup_iff).mpr h

theorem pySorted_length (l : List String) :
    (pySorted l).length = l.length :=
  (List.perm_insertionSort _ l).length_eq

theorem pySorted_eq_self {l : List String} (h : l.Sorted (· ≤ ·)) :
    pySorted l = l :=
  h.insertionSort_eq

theorem nodup_setAdd {l : List String} (h : l.Nodup) (i : String) :
    (setAdd l i).Nodup := by
  unfold setAdd
  split
  · exact h
  · next hn => exact (List.nodup_cons).mpr ⟨hn, h⟩

theorem nodup_setRemove {l : List String} (h : l.Nodup) (i : String) :
    (setRemove l i).Nodup :=
  h.filter _

theorem length_setAdd_of_not_mem {l : List String} {i : String}
    (h : i ∉ l) : (setAdd l i).length = l.length + 1 := by
  unfold setAdd
  rw [if_neg h]
  rfl

/-- C10.  After every click the highlight-sync handler returns both the
names list and the ISO list sorted in ascending order and free of
duplicates; toggling an ISO-3 that `ISO_TO_NAME` does not know updates
the ISO list but leaves the names list unchanged, so the two lists can
end up with different lengths. -/
theorem sync_highlights_sorted_nodup (f : String → Option String)
    (prevNames prevIsos : List String) (iso : Option String) :
    ((sync_highlights f prevNames prevIsos iso).1.Sorted (· ≤ ·) ∧
     (sync_highlights f prevNames prevIsos iso).1.Nodup ∧
     (sync_highlights f prevNames prevIsos iso).2.Sorted (· ≤ ·) ∧
     (sync_highlights f prevNames prevIsos iso).2.Nodup) ∧
    (∀ i, iso = some i → i ≠ "" → f i = none →
      (sync_highlights f prevNames prevIsos iso).1 =
        pySorted prevNames.dedup ∧
      (prevNames.Sorted (· ≤ ·) → prevNames.Nodup →
        (sync_highlights f prevNames prevIsos iso).1 = prevNames) ∧
      (i ∉ prevIsos →
        (sync_highlights f prevNames prevIsos iso).2.length =
          prevIsos.dedup.length + 1 ∧
        (sync_highlights f prevNames prevIsos iso).1.length =
          prevNames.dedup.length)) := by
  constructor
  · cases iso with
    | none =>
        exact ⟨pySorted_sorted _, pySorted_nodup prevNames.nodup_dedup,
          pySorted_sorted _, pySorted_nodup prevIsos.nodup_dedup⟩
    | some i =>
        simp only [sync_highlights]
        split_ifs with h1 h2
        · exact ⟨pySorted_sorted _, pySorted_nodup prevNames.nodup_dedup,
            pySorted_sorted _, pySorted_nodup prevIsos.nodup_dedup⟩
        · cases hf : f i with
          | none =>
              exact ⟨pySorted_sorted _,
                pySorted_nodup prevNames.nodup_dedup, pySorted_sorted _,
                pySorted_nodup (nodup_setRemove prevIsos.nodup_dedup i)⟩
          | some nm =>
              refine ⟨pySorted_sorted _, ?_, pySorted_sorted _,
                pySorted_nodup (nodup_setRemove prevIsos.nodup_dedup i)⟩
              by_cases hm : nm ∈ prevNames.dedup
              · simp only [hm, if_true]
                exact pySorted_nodup
                  (nodup_setRemove prevNames.nodup_dedup nm)
              · simp only [hm, if_false]
                exact pySorted_nodup prevNames.nodup_dedup
        · cases hf : f i with
          | none =>
              exact ⟨pySorted_sorted _,
                pySorted_nodup prevNames.nodup_dedup, pySorted_sorted _,
                pySorted_nodup (nodup_setAdd prevIsos.nodup_dedup i)⟩
          | some nm =>
              exact ⟨pySorted_sorted _,
                pySorted_nodup (nodup_setAdd prevNames.nodup_dedup nm),
                pySorted_sorted _,
                pySorted_nodup (nodup_setAdd prevIsos.nodup_dedup i)⟩
  · intro i hi hne hf
    subst hi
    have hnames : (sync_highlights f prevNames prevIsos (some i)).1 =
        pySorted prevNames.dedup := by
      simp only [sync_highlights, if_neg hne]
      split_ifs with h2
      · rw [hf]
      · rw [hf]
    refine ⟨hnames, ?_, ?_⟩
    · intro hs hn
      rw [hnames, (List.dedup_eq_self).mpr hn, pySorted_eq_self hs]
    · intro hni
      have hni2 : i ∉ prevIsos.dedup := fun hc =>
        hni ((List.mem_dedup).mp hc)
      constructor
      · have hisos : (sync_highlights f prevNames prevIsos (some i)).2 =
            pySorted (setAdd prevIsos.dedup i) := by
          simp only [sync_highlights, if_neg hne, if_neg hni2]
        rw [hisos, pySorted_length, length_setAdd_of_not_mem hni2]
      · rw [hnames, pySorted_length]

/-- Witness for C10: toggling the unknown code "XYZ" from empty stores
yields a sorted, duplicate-free pair with an unchanged (empty) names
list and a one-element ISO list — two different lengths. -/
theorem sync_highlights_sorted_nodup_witness :
    ((some "XYZ" : Option String) = some "XYZ" ∧ ("XYZ" : String) ≠ "" ∧
      (fun _ => (none : Option String)) "XYZ" = none ∧
      "XYZ" ∉ ([] : List String)) ∧
    (sync_highlights (fun _ => none) [] [] (some "XYZ")).1 =
      pySorted (List.dedup ([] : List String)) ∧
    (sync_highlights (fun _ => none) [] [] (some "XYZ")).2.length =
      (List.dedup ([] : List String)).length + 1 ∧
    (sync_highlights (fun _ => none) [] [] (some "XYZ")).1.length =
      (List.dedup ([] : List String)).length := by
  have h := sync_highlights_sorted_nodup (fun _ => none) [] [] (some "XYZ")
  have h2 := h.2 "XYZ" rfl (by decide) rfl
  have h3 := h2.2.2 (by decide)
  exact ⟨⟨rfl, by decide, rfl, by decide⟩, h2.1, h3.1, h3.2⟩

/-- A raw dataset row at the deduplication stage of the module-level
load loop (`cia_v1.py`): the country cell, the resolved ISO-3 code
(rows with missing ISO were already dropped), and the remaining cells,
missing or not.  `_data_count = df.notna().sum(axis=1)` counts the
non-missing cells; the always-present name and ISO cells add the same
constant to every row and drop out of all comparisons. -/
structure LRow where
  country : String
  iso : String
  fields : List (Option ℚ)
deriving DecidableEq

/-- The `_data_count` sort key: number of non-missing cells. -/
def dataCount (r : LRow) : Nat :=
  r.fields.countP (fun v => v.isSome)

/-- The descending-count order used by
`sort_values("_data_count", ascending=False)`. -/
def countGe (a b : LRow) : Prop :=
  dataCount b ≤ dataCount a

instance : DecidableRel countGe :=
  fun a b => Nat.decLe _ _

instance : IsTotal LRow countGe :=
  ⟨fun a b => (Nat.le_total (dataCount b) (dataCount a)).elim Or.inl Or.inr⟩

instance : IsTrans LRow countGe :=
  ⟨fun _ _ _ h1 h2 => le_trans h2 h1⟩

/-- `drop_duplicates(subset=["iso_alpha"])` with the default
`keep="first"`: retain the first row of each key, in order. -/
def keepFirstByAux {α κ : Type} [DecidableEq κ] (f : α → κ) :
    List κ → List α → List α
  | _, [] => []
  | seen, x :: xs =>
    if f x ∈ seen then keepFirstByAux f seen xs
    else x :: keepFirstByAux f (f x :: seen) xs

def keepFirstBy {α κ : Type} [DecidableEq κ] (f : α → κ)
    (l : List α) : List α :=
  keepFirstByAux f [] l

/-- `df.sort_values("_data_count", ascending=False)`: some permutation
of the rows that is descending in `dataCount`; modelled by insertion
sort (the dedup property below depends only on sortedness). -/
def sortByCountDesc (rows : List LRow) : List LRow :=
  List.insertionSort countGe rows

/-- The duplicate-handling line of the loader:
`df.sort_values("_data_count", ascending=False)
   .drop_duplicates(subset=["iso_alpha"])`. -/
def dedupByIso (rows : List LRow) : List LRow :=
  keepFirstBy LRow.iso (sortByCountDesc rows)

/- An element of the kept list is the first element of its key class
among the keys not yet seen. -/
theorem keepFirstByAux_head {α κ : Type} [DecidableEq κ] (f : α → κ) :
    ∀ (seen : List κ) (l : List α) (y : α),
      y ∈ keepFirstByAux f seen l →
      f y ∉ seen ∧
        (l.filter (fun r => decide (f r = f y))).head? = some y := by
  intro seen l
  induction l generalizing seen with
  | nil => intro y hy; exact absurd hy (List.not_mem_nil y)
  | cons x xs ih =>
      intro y hy
      by_cases hx : f x ∈ seen
      · rw [keepFirstByAux, if_pos hx] at hy
        obtain ⟨hys, hh⟩ := ih seen y hy
        refine ⟨hys, ?_⟩
        have hne : decide (f x = f y) = false := by
          simp only [decide_eq_false_iff_not]
          intro he
          exact hys (he ▸ hx)
        rw [List.filter_cons, hne]
        exact hh
      · rw [keepFirstByAux, if_neg hx] at hy
        rcases List.mem_cons.mp hy with he | hr
        · subst he
          refine ⟨hx, ?_⟩
          rw [List.filter_cons]
          simp
        · obtain ⟨hys, hh⟩ := ih (f x :: seen) y hr
          have hys2 : f y ∉ seen := fun hc => hys (List.mem_cons_of_mem _ hc)
          have hyx : f x ≠ f y := fun he =>
            hys (he ▸ List.mem_cons_self (f x) seen)
          refine ⟨hys2, ?_⟩
          have hne : decide (f x = f y) = false := by
            simp only [decide_eq_false_iff_not]
            exact hyx
          rw [List.filter_cons, hne]
          exact hh

/- Conversely, the first element of a not-yet-seen key class is kept. -/
theorem head_filter_mem_keepFirstByAux {α κ : Type} [DecidableEq κ]
    (f : α → κ) :
    ∀ (seen : List κ) (l : List α) (y : α),
      (l.filter (fun r => decide (f r = f y))).head? = some y →
      f y ∉ seen → y ∈ keepFirstByAux f seen l := by
  intro seen l
  induction l generalizing seen with
  | nil => intro y hy _; simp at hy
  | cons x xs ih =>
      intro y hy hseen
      by_cases hfx : f x = f y
      · have hd : decide (f x = f y) = true := by simpa using hfx
        rw [List.filter_cons, if_pos hd] at hy
        simp only [List.head?_cons, Option.some.injEq] at hy
        subst hy
        rw [keepFirstByAux, if_neg hseen]
        exact List.mem_cons_self x _
      · have hd : decide (f x = f y) = false := by simpa using hfx
        rw [List.filter_cons, if_neg (by simp [hd])] at hy
        by_cases hx : f x ∈ seen
        · rw [keepFirstByAux, if_pos hx]
          exact ih seen y hy hseen
        · rw [keepFirstByAux, if_neg hx]
          have hseen2 : f y ∉ f x :: seen := by
            intro hc
            rcases List.mem_cons.mp hc with he | hc2
            · exact hfx he.symm
            · exact hseen hc2
          exact List.mem_cons_of_mem x (ih (f x :: seen) y hy hseen2)

/- A filter of a descending-sorted list that is a permutation of the
pair `[r1, r2]` with `r1` strictly more complete is exactly `[r1, r2]`. -/
theorem filter_pair_of_sorted {p : LRow → Bool} {s : List LRow}
    {r1 r2 : LRow} (hs : s.Sorted countGe)
    (hperm : (s.filter p).Perm [r1, r2])
    (hc : dataCount r2 < dataCount r1) :
    s.filter p = [r1, r2] := by
  have hsl : (s.filter p).Sorted countGe :=
    List.Pairwise.sublist (List.filter_sublist s) hs
  have hlen : (s.filter p).length = 2 := by
    rw [hperm.length_eq]
    rfl
  match hsp : s.filter p with
  | [] => rw [hsp] at hlen; simp at hlen
  | [x] => rw [hsp] at hlen; simp at hlen
  | x :: y :: z :: t => rw [hsp] at hlen; simp at hlen
  | [x, y] =>
    rw [hsp] at hperm hsl
    have hx : x ∈ [r1, r2] := hperm.subset (by simp)
    rcases (by simpa using hx : x = r1 ∨ x = r2) with he | he
    · subst he
      have hy : y = r2 := by
        have h2 := hperm.cons_inv
        rw [List.perm_singleton] at h2
        injection h2 with h3 _
      rw [hy]
    · subst he
      have hy : y = r1 := by
        have h1 : (x :: y :: []).Perm (x :: r1 :: []) :=
          hperm.trans (List.Perm.swap x r1 [])
        have h2 := h1.cons_inv
        rw [List.perm_singleton] at h2
        injection h2 with h3 _
      subst hy
      have hord : countGe x y := (List.pairwise_cons.mp hsl).1 y
        (List.mem_cons_self y [])
      exact absurd hord (by
        intro h
        exact absurd (lt_of_lt_of_le hc h) (lt_irrefl _))

/-- C6.  When the load loop meets exactly two rows resolving to the
same ISO-3 code with differing counts of non-missing values, the
descending completeness sort followed by `drop_duplicates` on
`iso_alpha` retains exactly the more complete row and discards the
other. -/
theorem dedup_keeps_more_complete (rows : List LRow) (i : String)
    (r1 r2 : LRow)
    (hf : (rows.filter (fun r => decide (r.iso = i))).Perm [r1, r2])
    (hc : dataCount r2 < dataCount r1) :
    r1 ∈ dedupByIso rows ∧ r2 ∉ dedupByIso rows := by
  have hsperm : (sortByCountDesc rows).Perm rows :=
    List.perm_insertionSort _ rows
  have hs : (sortByCountDesc rows).Sorted countGe :=
    List.sorted_insertionSort _ rows
  have hfs : ((sortByCountDesc rows).filter
      (fun r => decide (r.iso = i))).Perm [r1, r2] :=
    (hsperm.filter _).trans hf
  have heq : (sortByCountDesc rows).filter
      (fun r => decide (r.iso = i)) = [r1, r2] :=
    filter_pair_of_sorted hs hfs hc
  have hr1m : r1 ∈ (sortByCountDesc rows).filter
      (fun r => decide (r.iso = i)) := by rw [heq]; simp
  have hr2m : r2 ∈ (sortByCountDesc rows).filter
      (fun r => decide (r.iso = i)) := by rw [heq]; simp
  have hk1 : r1.iso = i := by simpa using (List.of_mem_filter hr1m)
  have hk2 : r2.iso = i := by simpa using (List.of_mem_filter hr2m)
  have hpred1 : (fun r : LRow => decide (r.iso = r1.iso)) =
      (fun r : LRow => decide (r.iso = i)) := by rw [hk1]
  have hpred2 : (fun r : LRow => decide (r.iso = r2.iso)) =
      (fun r : LRow => decide (r.iso = i)) := by rw [hk2]
  have hne12 : r1 ≠ r2 := by
    intro he
    rw [he] at hc
    exact lt_irrefl _ hc
  constructor
  · apply head_filter_mem_keepFirstByAux LRow.iso [] (sortByCountDesc rows)
    · show ((sortByCountDesc rows).filter
        (fun r => decide (r.iso = r1.iso))).head? = some r1
      rw [hpred1, heq]
      rfl
    · exact List.not_mem_nil _
  · intro hmem
    obtain ⟨_, hh⟩ := keepFirstByAux_head LRow.iso []
      (sortByCountDesc rows) r2 hmem
    rw [show (fun r : LRow => decide (LRow.iso r = LRow.iso r2)) =
        (fun r : LRow => decide (r.iso = i)) from hpred2, heq] at hh
    simp only [List.head?_cons, Option.some.injEq] at hh
    exact hne12 hh

/-- The two concrete duplicate rows of the C6 witness. -/
def lrowFull : LRow :=
  { country := "United States", iso := "USA",
    fields := [some 1, some 2] }

def lrowSparse : LRow :=
  { country := "United States of America", iso := "USA",
    fields := [some 1, none] }

/-- Witness for C6: of two "USA" rows with 2 and 1 non-missing cells,
appearing least-complete first, only the more complete one survives. -/
theorem dedup_keeps_more_complete_witness :
    (([lrowSparse, lrowFull].filter
        (fun r => decide (r.iso = "USA"))).Perm [lrowFull, lrowSparse] ∧
      dataCount lrowSparse < dataCount lrowFull) ∧
    lrowFull ∈ dedupByIso [lrowSparse, lrowFull] ∧
    lrowSparse ∉ dedupByIso [lrowSparse, lrowFull] := by
  have hfilter : [lrowSparse, lrowFull].filter
      (fun r => decide (r.iso = "USA")) = [lrowSparse, lrowFull] := by
    decide
  have hperm : ([lrowSparse, lrowFull].filter
      (fun r => decide (r.iso = "USA"))).Perm [lrowFull, lrowSparse] := by
    rw [hfilter]
    exact List.Perm.swap lrowFull lrowSparse []
  have h := dedup_keeps_more_complete [lrowSparse, lrowFull] "USA"
    lrowFull lrowSparse hperm (by decide)
  exact ⟨⟨hperm, by decide⟩, h⟩

/-- A row as seen by `pca_view`: identity plus the numeric cells of the
selected columns, by position. -/
structure PRow where
  name : String
  iso : String
  values : List (Option ℚ)
deriving DecidableEq

/-- The column `j` of the frame. -/
def colVals (rows : List PRow) (j : Nat) : List (Option ℚ) :=
  rows.map (fun r => r.values.getD j none)

/-- The non-missing entries of a column. -/
def nonNull (l : List (Option ℚ)) : List ℚ :=
  l.filterMap id

/-- `X.notna().any()`: the column is not entirely null. -/
def notAllNull (l : List (Option ℚ)) : Bool :=
  l.any (fun v => v.isSome)

/-- `variances > 0` for one column: pandas `var()` skips missing
entries and uses `ddof=1`, so it is `NaN` (never `> 0`) with fewer than
two observations and otherwise `ssd / (n - 1)`, which is positive iff
the sum of squared deviations is. -/
def posVar (l : List (Option ℚ)) : Bool :=
  let xs := nonNull l
  if xs.length < 2 then false
  else
    let m : ℚ := xs.sum / (xs.length : ℚ)
    decide (0 < (xs.map (fun x => (x - m) ^ 2)).sum)

/-- The indicator columns surviving `X.loc[:, X.notna().any()]`
followed by `keep = variances[variances > 0]`. -/
def retainedCols (numIdx : List Nat) (rows : List PRow) : List Nat :=
  (numIdx.filter (fun j => notAllNull (colVals rows j))).filter
    (fun j => posVar (colVals rows j))

/-- What `pca_view` renders: one of its two explanatory placeholders
("Not enough numeric data for PCA", "Not enough variance for PCA") or
the actual projection, carrying the retained columns. -/
inductive PcaResult where
  | insufficientData
  | insufficientVariance
  | projection (cols : List Nat)
deriving DecidableEq

/-- The gating structure of `pca_view` (`cia_v1.py`): first
`if len(num_cols) < 3 or len(base) < 3`, then — after dropping the
entirely-null and the zero-variance columns — `if X.shape[1] < 2 or
len(X) < 3`; only past both gates is the projection computed. -/
def pca_view (numIdx : List Nat) (rows : List PRow) : PcaResult :=
  if numIdx.length < 3 ∨ rows.length < 3 then .insufficientData
  else if (retainedCols numIdx rows).length < 2 ∨ rows.length < 3 then
    .insufficientVariance
  else .projection (retainedCols numIdx rows)

/-- True on either explanatory placeholder. -/
def isPlaceholder : PcaResult → Bool
  | .projection _ => false
  | _ => true

/-- Three rows over two columns, both columns non-constant: enough rows
and enough retained indicators, yet fewer than three columns. -/
def pcaRowsC7 : List PRow :=
  [{ name := "a", iso := "AAA", values := [some 1, some 2] },
   { name := "b", iso := "BBB", values := [some 2, some 4] },
   { name := "c", iso := "CCC", values := [some 3, some 1] }]

/-- Counterexample to C7 as stated: with 3 rows and 2 retained
indicators (no missing data, both columns of positive variance) the
claim predicts a projection, yet `pca_view` reports the placeholder,
because its first gate also demands at least 3 numeric columns. -/
theorem pca_placeholder_despite_enough_retained :
    isPlaceholder (pca_view [0, 1] pcaRowsC7) = true ∧
    ¬(pcaRowsC7.length < 3 ∨
      (retainedCols [0, 1] pcaRowsC7).length < 2) := by
  have hret : retainedCols [0, 1] pcaRowsC7 = [0, 1] := by
    norm_num [retainedCols, pcaRowsC7, colVals, notAllNull, posVar, nonNull,
      List.filterMap_cons, List.sum_cons, List.sum_nil, id_eq]
  constructor
  · rw [pca_view, if_pos (Or.inl (by norm_num))]
    rfl
  · rw [hret]
    norm_num [pcaRowsC7]

/-- C7 (amended).  `pca_view` reports an explanatory placeholder
instead of a projection exactly when fewer than 3 numeric columns are
selected, or fewer than 3 rows remain, or fewer than 2 indicators are
retained after dropping entirely-null and zero-variance columns. -/
theorem pca_placeholder_iff (numIdx : List Nat) (rows : List PRow) :
    isPlaceholder (pca_view numIdx rows) = true ↔
      (numIdx.length < 3 ∨ rows.length < 3 ∨
        (retainedCols numIdx rows).length < 2) := by
  unfold pca_view
  split_ifs with h1 h2
  · exact iff_of_true rfl (by tauto)
  · exact iff_of_true rfl (by tauto)
  · exact iff_of_false (by simp [isPlaceholder]) (by tauto)

/-- Python `int(...)` on a float: truncation toward zero. -/
def truncQ (v : ℚ) : Int :=
  if 0 ≤ v then ⌊v⌋ else ⌈v⌉

/-- The clamp of the claim: `max(3, min(50, n))`. -/
def clampTopN (n : Int) : Int :=
  max 3 (min 50 n)

/-- `int(topn or 10)`: Python `or` yields the default for every falsy
input — `None` and `0` — and otherwise truncates the number. -/
def pyIntOr10 : Option ℚ → Int
  | none => 10
  | some v => if v = 0 then 10 else truncQ v

/-- The effective Top-N of `analytics`:
`topn = max(3, min(50, int(topn or 10)))`. -/
def effTopN (t : Option ℚ) : Int :=
  clampTopN (pyIntOr10 t)

/-- The rank computation:
`base[[...]].dropna().sort_values(ind, ascending=False).head(topn)`,
carried on (country, value) pairs. -/
def ranking (rows : List (String × Option ℚ)) (topn : Option ℚ) :
    List (String × ℚ) :=
  let rs := rows.filterMap (fun p => (p.2).map (fun v => (p.1, v)))
  (List.insertionSort (fun a b : String × ℚ => b.2 ≤ a.2) rs).take
    (effTopN topn).toNat

/-- Counterexample to C8 as stated: the numeric input `0` clamps to 3,
but the code evaluates `0 or 10` to the default 10, so the effective N
is not the clamped input. -/
theorem topn_zero_not_clamped :
    effTopN (some 0) = 10 ∧ clampTopN (truncQ 0) = 3 ∧
    effTopN (some 0) ≠ clampTopN (truncQ 0) := by
  have h0 : truncQ 0 = 0 := by
    simp [truncQ]
  refine ⟨by simp [effTopN, pyIntOr10, clampTopN], ?_, ?_⟩
  · rw [h0]
    simp [clampTopN]
  · rw [h0]
    simp [effTopN, pyIntOr10, clampTopN]

/-- C8 (amended).  The Top-N input is never rejected: the effective N
always lands in `[3, 50]`; a non-zero numeric input is truncated and
clamped into `[3, 50]`, while an absent or zero (falsy) input is first
replaced by the default 10; on `[(USA,10),(CAN,20),(MEX,30)]` with
Top-N = 2 the effective N is the clamped 3 and the ranking is the
3-prefix of the rows sorted descending. -/
theorem effTopN_clamps (t : Option ℚ) :
    (3 ≤ effTopN t ∧ effTopN t ≤ 50) ∧
    effTopN none = clampTopN 10 ∧
    effTopN (some 0) = clampTopN 10 ∧
    (∀ v : ℚ, v ≠ 0 → effTopN (some v) = clampTopN (truncQ v)) ∧
    effTopN (some 2) = 3 ∧
    ranking [("USA", some 10), ("CAN", some 20), ("MEX", some 30)]
      (some 2) = [("MEX", 30), ("CAN", 20), ("USA", 10)] := by
  refine ⟨⟨le_max_left _ _, ?_⟩, rfl, ?_, ?_, ?_, ?_⟩
  · exact max_le (by norm_num) (min_le_left _ _)
  · simp [effTopN, pyIntOr10]
  · intro v hv
    simp [effTopN, pyIntOr10, hv]
  · have h2 : truncQ 2 = 2 := by
      rw [truncQ, if_pos (by norm_num)]
      norm_num
    simp [effTopN, pyIntOr10, clampTopN, h2]
  · have h2 : truncQ 2 = 2 := by
      rw [truncQ, if_pos (by norm_num)]
      norm_num
    have he : effTopN (some 2) = 3 := by
      simp [effTopN, pyIntOr10, clampTopN, h2]
    rw [ranking, he]
    rfl

/-- Witness for C8: the in-range non-zero input 7 is clamped (to
itself). -/
theorem effTopN_clamps_witness :
    ((7 : ℚ) ≠ 0) ∧ effTopN (some 7) = clampTopN (truncQ 7) :=
  ⟨by norm_num, (effTopN_clamps (some 7)).2.2.2.1 7 (by norm_num)⟩
